import Mathlib

/-!
Verification of the compression codec core of
`adilg123/file-compression-decompression-tool`.

The Go source is shallowly embedded: byte buffers are `List Nat` (each
element `< 256`), runes (Go code points) are `List Nat`, `uint32`
arithmetic is `Nat` arithmetic reduced `% 2 ^ 32` exactly where the Go
code can wrap, and fallible code returns `Option`.  Go functions keep
their source names where Lean allows it.
-/

set_option maxRecDepth 100000

namespace Codec

/-! ## Bit reversal (`huffman/utils.go`, `Reverse`) -/

/-- Accumulator loop of `huffman.Reverse`: one iteration per remaining
`length`, shifting the low bit of `n` into `out` from the left.  `out` is a
`uint32` in Go, so each update is reduced `% 2 ^ 32`. -/
def ReverseAux (n length out : Nat) : Nat :=
  match length with
  | 0 => out
  | l + 1 => ReverseAux (n >>> 1) l (((out <<< 1) ||| (n &&& 1)) % 2 ^ 32)

/-- `huffman.Reverse`: reverse the low `length` bits of `n` (uint32). -/
def Reverse (n length : Nat) : Nat :=
  ReverseAux n length 0

/-- Mathematical bit reversal of the low `k` bits, with no `uint32`
truncation; used to reason about `Reverse`. -/
def revPure (n : Nat) : Nat → Nat
  | 0 => 0
  | k + 1 => n % 2 * 2 ^ k + revPure (n / 2) k

theorem revPure_lt (n k : Nat) : revPure n k < 2 ^ k := by
  induction k generalizing n with
  | zero => simp [revPure]
  | succ k ih =>
    have h1 : n % 2 ≤ 1 := Nat.le_of_lt_succ (Nat.mod_lt n (by norm_num))
    have h2 := ih (n / 2)
    have h3 : n % 2 * 2 ^ k ≤ 2 ^ k := by
      calc n % 2 * 2 ^ k ≤ 1 * 2 ^ k := Nat.mul_le_mul_right _ h1
      _ = 2 ^ k := by ring
    calc revPure n (k + 1) = n % 2 * 2 ^ k + revPure (n / 2) k := rfl
    _ < 2 ^ k + 2 ^ k := by omega
    _ = 2 ^ (k + 1) := by ring

theorem ReverseAux_eq_revPure (k : Nat) : ∀ n acc, k ≤ 32 → acc < 2 ^ (32 - k) →
    ReverseAux n k acc = acc * 2 ^ k + revPure n k := by
  induction k with
  | zero => intro n acc _ _; simp [ReverseAux, revPure]
  | succ k ih =>
    intro n acc hk hacc
    have hn2 : n &&& 1 = n % 2 := Nat.and_one_is_mod n
    have hmod : (acc <<< 1 ||| n &&& 1) % 2 ^ 32 = acc * 2 + n % 2 := by
      have h1 : acc <<< 1 = 2 ^ 1 * acc := by
        rw [Nat.shiftLeft_eq]; ring
      have hor : acc <<< 1 ||| n &&& 1 = acc * 2 + n % 2 := by
        rw [h1, hn2, ← Nat.mul_add_lt_is_or (i := 1) (by omega) acc]
        ring
      rw [hor]
      apply Nat.mod_eq_of_lt
      have hib : acc + 1 ≤ 2 ^ (32 - (k + 1)) := hacc
      have h232 : 2 ^ (32 - (k + 1)) * 2 ≤ 2 ^ 32 := by
        calc 2 ^ (32 - (k + 1)) * 2 = 2 ^ (32 - (k + 1) + 1) := by ring
        _ ≤ 2 ^ 32 := Nat.pow_le_pow_right (by norm_num) (by omega)
      omega
    have hacc2 : acc * 2 + n % 2 < 2 ^ (32 - k) := by
      have hsk : 32 - (k + 1) + 1 = 32 - k := by omega
      have hib : acc + 1 ≤ 2 ^ (32 - (k + 1)) := hacc
      have h2 : 2 ^ (32 - (k + 1)) * 2 = 2 ^ (32 - k) := by
        rw [← hsk]; ring
      omega
    calc ReverseAux n (k + 1) acc
        = ReverseAux (n >>> 1) k ((acc <<< 1 ||| n &&& 1) % 2 ^ 32) := rfl
    _ = ReverseAux (n / 2) k (acc * 2 + n % 2) := by
        rw [hmod, Nat.shiftRight_succ_inside, Nat.shiftRight_zero]
    _ = (acc * 2 + n % 2) * 2 ^ k + revPure (n / 2) k :=
        ih (n / 2) _ (by omega) hacc2
    _ = acc * 2 ^ (k + 1) + (n % 2 * 2 ^ k + revPure (n / 2) k) := by ring
    _ = acc * 2 ^ (k + 1) + revPure n (k + 1) := rfl

theorem Reverse_eq_revPure (n L : Nat) (hL : L ≤ 32) : Reverse n L = revPure n L := by
  have h := ReverseAux_eq_revPure L n 0 hL (Nat.pos_pow_of_pos _ (by norm_num))
  simpa [Reverse] using h

theorem revPure_testBit (k : Nat) : ∀ n j, j < k →
    (revPure n k).testBit j = n.testBit (k - 1 - j) := by
  induction k with
  | zero => intro n j h; omega
  | succ k ih =>
    intro n j hj
    have hrw : revPure n (k + 1) = 2 ^ k * (n % 2) + revPure (n / 2) k := by
      show n % 2 * 2 ^ k + revPure (n / 2) k = _
      ring
    rw [hrw, Nat.testBit_mul_pow_two_add _ (revPure_lt (n / 2) k) j]
    by_cases hjk : j < k
    · rw [if_pos hjk, ih (n / 2) j hjk, Nat.testBit_div_two]
      congr 1
      omega
    · have hje : j = k := by omega
      rw [if_neg hjk, hje]
      have h0 : k - k = 0 := by omega
      have h1 : k + 1 - 1 - k = 0 := by omega
      rw [h0, h1, Nat.testBit_zero, Nat.testBit_zero,
        Nat.mod_mod_of_dvd n (dvd_refl 2)]

theorem revPure_involution (n L : Nat) (h : n < 2 ^ L) :
    revPure (revPure n L) L = n := by
  apply Nat.eq_of_testBit_eq
  intro j
  by_cases hj : j < L
  · rw [revPure_testBit L _ j hj, revPure_testBit L n (L - 1 - j) (by omega)]
    congr 1
    omega
  · have h1 : revPure (revPure n L) L < 2 ^ j :=
      lt_of_lt_of_le (revPure_lt _ L) (Nat.pow_le_pow_right (by norm_num) (by omega))
    have h2 : n < 2 ^ j :=
      lt_of_lt_of_le h (Nat.pow_le_pow_right (by norm_num) (by omega))
    rw [Nat.testBit_lt_two_pow h1, Nat.testBit_lt_two_pow h2]

/-- C9: for every `n < 2^L` with `L ≤ 32`, reversing the low `L` bits twice
with `huffman.Reverse` returns `n`. -/
theorem reverse_involution (n L : Nat) (hn : n < 2 ^ L) (hL : L ≤ 32) :
    Reverse (Reverse n L) L = n := by
  rw [Reverse_eq_revPure n L hL, Reverse_eq_revPure _ L hL]
  exact revPure_involution n L hn

/-- Witness for C9 at `n = 5`, `L = 3`. -/
theorem reverse_involution_witness : 5 < 2 ^ 3 ∧ 3 ≤ 32 ∧ Reverse (Reverse 5 3) 3 = 5 :=
  ⟨by decide, by decide, reverse_involution 5 3 (by decide) (by decide)⟩

/-! ## DEFLATE code-length run-length encoder
(`flate/inflate.go`, `(*CodeLengthCode).FindCode`) -/

/-- The `resolveCountZero` closure of `CodeLengthCode.FindCode`: flush a
pending run of `countZero` zeros into condensed `(RLECode, Offset)` items.
Runs of 138 are flushed inline by the main loop, so `countZero < 138` here;
the Go error branch for longer runs is `none`. -/
def resolveCountZero (countZero : Nat) : Option (List (Nat × Nat)) :=
  if countZero = 0 then some []
  else if countZero < 3 then some (List.replicate countZero (0, 0))
  else if countZero < 11 then some [(17, countZero - 3)]
  else if countZero < 138 then some [(18, countZero - 11)]
  else none

/-- The `resolveCountSame` closure of `CodeLengthCode.FindCode`: flush a
pending run of `countSame` extra repeats of the value at the previous index
(`prevVal` stands for `lengthHuffmanLengths[prevIndex]`, which is the
repeated value whenever `countSame > 0`). -/
def resolveCountSame (prevVal countSame : Nat) : Option (List (Nat × Nat)) :=
  if countSame = 0 then some []
  else if countSame < 3 then some (List.replicate countSame (prevVal, 0))
  else if countSame < 6 then some [(16, countSame - 3)]
  else none

/-- Main loop of `CodeLengthCode.FindCode`.  `prev` is `none` at index 0 and
otherwise holds the previous element, standing for the Go test
`i == 0 || length != lengthHuffmanLengths[i-1]` and for the
`lengthHuffmanLengths[prevIndex]` read inside `resolveCountSame`. -/
def clcFindCodeLoop : List Nat → Option Nat → Nat → Nat → Option (List (Nat × Nat))
  | [], prev, countZero, countSame => do
    let z ← resolveCountZero countZero
    let s ← resolveCountSame (prev.getD 0) countSame
    pure (z ++ s)
  | length :: rest, prev, countZero, countSame =>
    if length = 0 then do
      let s ← resolveCountSame (prev.getD 0) countSame
      if countZero + 1 = 138 then do
        let tl ← clcFindCodeLoop rest (some length) 0 0
        pure (s ++ [(18, 127)] ++ tl)
      else do
        let tl ← clcFindCodeLoop rest (some length) (countZero + 1) 0
        pure (s ++ tl)
    else if prev = some length then
      if countSame + 1 = 6 then do
        let tl ← clcFindCodeLoop rest (some length) countZero 0
        pure ((16, 3) :: tl)
      else
        clcFindCodeLoop rest (some length) countZero (countSame + 1)
    else do
      let z ← resolveCountZero countZero
      let s ← resolveCountSame (prev.getD 0) countSame
      let tl ← clcFindCodeLoop rest (some length) 0 0
      pure (z ++ s ++ (length, 0) :: tl)

/-- `CodeLengthCode.FindCode`: run-length-encode a code-length vector into
condensed `(RLECode, Offset)` items over the 19-symbol alphabet. -/
def clcFindCode (lengths : List Nat) : Option (List (Nat × Nat)) :=
  clcFindCodeLoop lengths none 0 0

/-- C6: the RLE encoder emits a single code-18 item with offset 127 for a run
of exactly 138 zeros, code-18(127) followed by one literal 0 for 139 zeros,
and the literal `v` followed by code-16 with offset 1 for 5 repeats of any
non-zero `v`. -/
theorem rle_run_coverage :
    clcFindCode (List.replicate 138 0) = some [(18, 127)] ∧
    clcFindCode (List.replicate 139 0) = some [(18, 127), (0, 0)] ∧
    ∀ v : Nat, v ≠ 0 → clcFindCode (List.replicate 5 v) = some [(v, 0), (16, 1)] := by
  refine ⟨by decide, by decide, ?_⟩
  intro v hv
  simp [clcFindCode, clcFindCodeLoop, resolveCountZero, resolveCountSame, hv,
    List.replicate_succ]

/-- Witness for C6 instantiating the non-zero repeated value at `v = 4`. -/
theorem rle_run_coverage_witness :
    clcFindCode (List.replicate 5 4) = some [(4, 0), (16, 1)] :=
  rle_run_coverage.2.2 4 (by decide)

/-! ## LZSS matcher (`lzss/compression.go`: `findPrefix`, `kmp`,
`matchSearchBuffer`).  Runes are embedded as `Nat`. -/

/-- The inner `for j > 0 && pattern[i] != pattern[j] { j = pi[j-1] }` loop
shared by `findPrefix` and `kmp`.  The Go loop terminates because the prefix
table satisfies `pi[m] ≤ m`; here it carries explicit fuel, which is never
exhausted when the table has that property (fuel `k` suffices since `k`
strictly decreases). -/
def kmpFallback (pattern pi : List Nat) (b : Nat) : Nat → Nat → Nat
  | 0, k => k
  | fuel + 1, k =>
    if k > 0 ∧ b ≠ pattern.getD k 0 then
      kmpFallback pattern pi b fuel (pi.getD (k - 1) 0)
    else k

/-- Body of the `findPrefix` loop for indices `i = 1 .. len(pattern)-1`; `pi`
grows by one entry per iteration (`pi[0] = 0` comes from Go zero
initialisation and is never assigned). -/
def findPrefixTableAux (pattern : List Nat) : Nat → List Nat → Nat → List Nat
  | 0, pi, _ => pi
  | n + 1, pi, i =>
    let j0 := pi.getD (i - 1) 0
    let j1 := kmpFallback pattern pi (pattern.getD i 0) j0 j0
    let j2 := if pattern.getD i 0 = pattern.getD j1 0 then j1 + 1 else j1
    findPrefixTableAux pattern n (pi ++ [j2]) (i + 1)

/-- `lzss.findPrefix`: the KMP prefix-function table of `pattern`. -/
def findPrefixTable (pattern : List Nat) : List Nat :=
  match pattern with
  | [] => []
  | _ :: rest => findPrefixTableAux pattern rest.length [0] 1

/-- Main loop of `lzss.kmp` over the search buffer: state is the running
index `i`, the best match length `best`, the current automaton state `k` and
`bestIndex`; Go computes `bestIndex = i - k + 1` (always non-negative since
`k ≤ i + 1`). -/
def kmpLoopGo (pattern pi : List Nat) :
    List Nat → Nat → Nat → Nat → Nat → Nat × Nat
  | [], _, best, _, bestIndex => (best, bestIndex)
  | b :: rest, i, best, k, bestIndex =>
    let k1 := kmpFallback pattern pi b k k
    let k2 := if b = pattern.getD k1 0 then k1 + 1 else k1
    if best < k2 then
      if k2 = pattern.length then (k2, i + 1 - k2)
      else kmpLoopGo pattern pi rest (i + 1) k2 k2 (i + 1 - k2)
    else kmpLoopGo pattern pi rest (i + 1) best k2 bestIndex

/-- `lzss.kmp`: longest prefix of `pattern` occurring in `searchBuffer`,
returned as `(best length, start index)`. -/
def kmp (searchBuffer pattern : List Nat) : Nat × Nat :=
  kmpLoopGo pattern (findPrefixTable pattern) searchBuffer 0 0 0 0

/-- `lzss.Reference` (from the constants file of package `lzss`). -/
structure Reference where
  Value : List Nat
  IsRef : Bool
  NegativeOffset : Nat
  Size : Nat
  deriving Repr, DecidableEq

/-- `lzss.matchSearchBuffer`: run KMP for one position and build the
`Reference` sent down the channel (pure here: the channel only carries this
one value).  Go zero values fill the fields not assigned in each branch. -/
def matchSearchBuffer (searchBuffer scanRunes nextRunes : List Nat) : Reference :=
  let pattern := scanRunes ++ nextRunes
  let ml := kmp searchBuffer pattern
  if ml.1 > 1 then
    { IsRef := true, Value := pattern.take ml.1, Size := ml.1,
      NegativeOffset := searchBuffer.length - ml.2 }
  else
    { IsRef := false, Value := scanRunes, Size := scanRunes.length,
      NegativeOffset := 0 }

theorem kmpFallback_le (pattern pi : List Nat) (b : Nat)
    (hpi : ∀ m, pi.getD m 0 ≤ m) :
    ∀ fuel k, kmpFallback pattern pi b fuel k ≤ k := by
  intro fuel
  induction fuel with
  | zero => intro k; simp [kmpFallback]
  | succ fuel ih =>
    intro k
    rw [show kmpFallback pattern pi b (fuel + 1) k
        = if k > 0 ∧ b ≠ pattern.getD k 0 then
            kmpFallback pattern pi b fuel (pi.getD (k - 1) 0)
          else k from rfl]
    by_cases h : k > 0 ∧ b ≠ pattern.getD k 0
    · rw [if_pos h]
      calc kmpFallback pattern pi b fuel (pi.getD (k - 1) 0)
          ≤ pi.getD (k - 1) 0 := ih _
      _ ≤ k - 1 := hpi _
      _ ≤ k := Nat.sub_le k 1
    · rw [if_neg h]

theorem findPrefixTableAux_bound (pattern : List Nat) :
    ∀ n pi i, (∀ m, pi.getD m 0 ≤ m) → pi.length = i → 0 < i →
    ∀ m, (findPrefixTableAux pattern n pi i).getD m 0 ≤ m := by
  intro n
  induction n with
  | zero => intro pi i hpi _ _ m; exact hpi m
  | succ n ih =>
    intro pi i hpi hlen hi m
    have hj0 : pi.getD (i - 1) 0 ≤ i - 1 := hpi _
    have hj1 := kmpFallback_le pattern pi (pattern.getD i 0) hpi
      (pi.getD (i - 1) 0) (pi.getD (i - 1) 0)
    set j1 := kmpFallback pattern pi (pattern.getD i 0)
      (pi.getD (i - 1) 0) (pi.getD (i - 1) 0) with hj1def
    have hj2 : (if pattern.getD i 0 = pattern.getD j1 0 then j1 + 1 else j1) ≤ i := by
      split <;> omega
    set j2 := if pattern.getD i 0 = pattern.getD j1 0 then j1 + 1 else j1 with hj2def
    have happ : ∀ m, (pi ++ [j2]).getD m 0 ≤ m := by
      intro m
      by_cases hm : m < pi.length
      · rw [List.getD_append _ _ _ _ hm]
        exact hpi m
      · by_cases hm2 : m = pi.length
        · subst hm2
          rw [List.getD_eq_getElem?_getD, List.getElem?_append_right (le_refl _)]
          simpa using by omega
        · have : pi.length + 1 ≤ m := by omega
          rw [List.getD_eq_getElem?_getD, List.getElem?_eq_none (by simp; omega)]
          simp
    exact ih (pi ++ [j2]) (i + 1) happ (by simp [hlen]) (by omega) m

theorem findPrefixTable_bound (pattern : List Nat) :
    ∀ m, (findPrefixTable pattern).getD m 0 ≤ m := by
  intro m
  match pattern with
  | [] => simp [findPrefixTable]
  | p :: rest =>
    apply findPrefixTableAux_bound
    · intro m
      match m with
      | 0 => simp
      | m + 1 => simp [List.getD]
    · simp
    · decide

theorem kmpLoopGo_bound (pattern pi : List Nat)
    (hpi : ∀ m, pi.getD m 0 ≤ m) :
    ∀ rest i best k bestIndex, best + bestIndex ≤ i → k ≤ i →
    (kmpLoopGo pattern pi rest i best k bestIndex).1 +
      (kmpLoopGo pattern pi rest i best k bestIndex).2 ≤ i + rest.length := by
  intro rest
  induction rest with
  | nil => intro i best k bestIndex hb hk; simpa [kmpLoopGo] using hb
  | cons b rest ih =>
    intro i best k bestIndex hb hk
    have hk1 := kmpFallback_le pattern pi b hpi k k
    set k1 := kmpFallback pattern pi b k k with hk1def
    have hk2 : (if b = pattern.getD k1 0 then k1 + 1 else k1) ≤ i + 1 := by
      split <;> omega
    set k2 := if b = pattern.getD k1 0 then k1 + 1 else k1 with hk2def
    show (kmpLoopGo pattern pi (b :: rest) i best k bestIndex).1 +
      (kmpLoopGo pattern pi (b :: rest) i best k bestIndex).2 ≤ i + (rest.length + 1)
    rw [kmpLoopGo]
    simp only [← hk1def, ← hk2def]
    by_cases hbest : best < k2
    · rw [if_pos hbest]
      by_cases hend : k2 = pattern.length
      · rw [if_pos hend]
        simp only
        omega
      · rw [if_neg hend]
        have := ih (i + 1) k2 k2 (i + 1 - k2) (by omega) (by omega)
        omega
    · rw [if_neg hbest]
      have := ih (i + 1) best k2 bestIndex (by omega) (by omega)
      omega

theorem kmp_bound (searchBuffer pattern : List Nat) :
    (kmp searchBuffer pattern).1 + (kmp searchBuffer pattern).2 ≤
      searchBuffer.length := by
  have h := kmpLoopGo_bound pattern (findPrefixTable pattern)
    (findPrefixTable_bound pattern) searchBuffer 0 0 0 0 (by omega) (by omega)
  simpa [kmp] using h

/-- C10: every reference the LZSS matcher produces satisfies
`Size ≤ NegativeOffset`, so the overlap-rejection branch
`ref.Size > ref.NegativeOffset` of `flate.tokeniseLZSS` can never fire on
matcher output. -/
theorem matcher_no_overlap (searchBuffer scanRunes nextRunes : List Nat)
    (h : (matchSearchBuffer searchBuffer scanRunes nextRunes).IsRef = true) :
    ¬ (matchSearchBuffer searchBuffer scanRunes nextRunes).Size >
      (matchSearchBuffer searchBuffer scanRunes nextRunes).NegativeOffset := by
  have hb := kmp_bound searchBuffer (scanRunes ++ nextRunes)
  unfold matchSearchBuffer at *
  by_cases hml : (kmp searchBuffer (scanRunes ++ nextRunes)).1 > 1
  · simp only [hml, if_pos] at *
    simp only [gt_iff_lt, not_lt]
    omega
  · simp [hml] at h

/-- Witness for C10: the matcher at search buffer `[97, 98]`, scan rune `97`,
next runes `[98]` yields a reference with `Size = 2 ≤ NegativeOffset = 2`. -/
theorem matcher_no_overlap_witness :
    (matchSearchBuffer [97, 98] [97] [98]).IsRef = true ∧
    ¬ (matchSearchBuffer [97, 98] [97] [98]).Size >
      (matchSearchBuffer [97, 98] [97] [98]).NegativeOffset :=
  ⟨by decide, matcher_no_overlap [97, 98] [97] [98] (by decide)⟩

/-! ## Go string conversions

The Go source converts `[]byte` to `[]rune` (UTF-8 decoding, invalid bytes
becoming U+FFFD) and back (UTF-8 encoding) with the builtin conversions
`[]rune(string(b))` and `[]byte(string(r))`.  These are embedded below
following the `unicode/utf8` acceptance ranges. -/

/-- `utf8.RuneError` (U+FFFD). -/
def RuneError : Nat := 0xFFFD

/-- A UTF-8 continuation byte is in `0x80 .. 0xBF`. -/
def isCont (b : Nat) : Bool := 0x80 ≤ b ∧ b ≤ 0xBF

/-- Acceptance range for the second byte of a 3-byte sequence, per
`utf8.acceptRanges`. -/
def accept3 (b0 b1 : Nat) : Bool :=
  if b0 = 0xE0 then 0xA0 ≤ b1 ∧ b1 ≤ 0xBF
  else if b0 = 0xED then 0x80 ≤ b1 ∧ b1 ≤ 0x9F
  else isCont b1

/-- Acceptance range for the second byte of a 4-byte sequence, per
`utf8.acceptRanges`. -/
def accept4 (b0 b1 : Nat) : Bool :=
  if b0 = 0xF0 then 0x90 ≤ b1 ∧ b1 ≤ 0xBF
  else if b0 = 0xF4 then 0x80 ≤ b1 ∧ b1 ≤ 0x8F
  else isCont b1

/-- `utf8.DecodeRune`: decode one rune from the front of `bytes`, returning
the rune and the number of bytes consumed (`(RuneError, 1)` on any invalid
or truncated sequence, as Go does). -/
def decodeRuneGo (bytes : List Nat) : Nat × Nat :=
  match bytes with
  | [] => (RuneError, 1)
  | b0 :: rest =>
    if b0 < 0x80 then (b0, 1)
    else if 0xC2 ≤ b0 ∧ b0 ≤ 0xDF then
      match rest with
      | b1 :: _ =>
        if isCont b1 then (((b0 &&& 0x1F) <<< 6) ||| (b1 &&& 0x3F), 2)
        else (RuneError, 1)
      | [] => (RuneError, 1)
    else if 0xE0 ≤ b0 ∧ b0 ≤ 0xEF then
      match rest with
      | b1 :: b2 :: _ =>
        if accept3 b0 b1 ∧ isCont b2 then
          (((b0 &&& 0x0F) <<< 12) ||| ((b1 &&& 0x3F) <<< 6) ||| (b2 &&& 0x3F), 3)
        else (RuneError, 1)
      | _ => (RuneError, 1)
    else if 0xF0 ≤ b0 ∧ b0 ≤ 0xF4 then
      match rest with
      | b1 :: b2 :: b3 :: _ =>
        if accept4 b0 b1 ∧ isCont b2 ∧ isCont b3 then
          (((b0 &&& 0x07) <<< 18) ||| ((b1 &&& 0x3F) <<< 12) |||
            ((b2 &&& 0x3F) <<< 6) ||| (b3 &&& 0x3F), 4)
        else (RuneError, 1)
      | _ => (RuneError, 1)
    else (RuneError, 1)

/-- Fueled loop of `[]rune(string(bytes))`; the fuel is the byte count,
sufficient because every step consumes at least one byte. -/
def goStringToRunesAux : Nat → List Nat → List Nat
  | 0, _ => []
  | _, [] => []
  | fuel + 1, bytes =>
    let rs := decodeRuneGo bytes
    rs.1 :: goStringToRunesAux fuel (bytes.drop rs.2)

/-- Go conversion `[]rune(string(bytes))`. -/
def goStringToRunes (bytes : List Nat) : List Nat :=
  goStringToRunesAux bytes.length bytes

/-- `utf8.EncodeRune` / `utf8.AppendRune`: UTF-8 bytes of one rune;
surrogates and out-of-range runes encode as `RuneError`. -/
def encodeRuneGo (r : Nat) : List Nat :=
  if r < 0x80 then [r]
  else if r < 0x800 then [0xC0 ||| (r >>> 6), 0x80 ||| (r &&& 0x3F)]
  else if (0xD800 ≤ r ∧ r ≤ 0xDFFF) ∨ 0x10FFFF < r then [0xEF, 0xBF, 0xBD]
  else if r < 0x10000 then
    [0xE0 ||| (r >>> 12), 0x80 ||| ((r >>> 6) &&& 0x3F), 0x80 ||| (r &&& 0x3F)]
  else
    [0xF0 ||| (r >>> 18), 0x80 ||| ((r >>> 12) &&& 0x3F),
      0x80 ||| ((r >>> 6) &&& 0x3F), 0x80 ||| (r &&& 0x3F)]

/-- Go conversion `[]byte(string(runes))`. -/
def goRunesToBytes (runes : List Nat) : List Nat :=
  runes.flatMap encodeRuneGo

/-! ## LZSS textual codec (`lzss/compression.go`, second half of the package
file, and the package constants). -/

/-- The `lzss` package constants `Opening`, `Closing`, `Separator`,
`Escape` as rune values. -/
def Opening : Nat := 60

def Closing : Nat := 62

def Separator : Nat := 44

def Escape : Nat := 92

/-- `lzss.conflictingLiterals`. -/
def conflictingLiterals : List Nat := [60, 62, 44, 92]

/-- `lzss.escapeConflictingSymbols`. -/
def escapeConflictingSymbols (content : List Nat) : List Nat :=
  content.flatMap fun symbol =>
    if symbol ∈ conflictingLiterals then [Escape, symbol] else [symbol]

/-- Decimal digit runes of `n`, as `strconv.Itoa` produces. -/
def natDecRunes (n : Nat) : List Nat :=
  (Nat.toDigits 10 n).map Char.toNat

/-- `lzss.getSymbolEncoded`: textual form `<negOffset,length>`. -/
def getSymbolEncoded (negOffset length : Nat) : List Nat :=
  Opening :: natDecRunes negOffset ++ Separator :: natDecRunes length ++ [Closing]

/-- `lzss.FindMatch`: one `matchSearchBuffer` result per input position
(the goroutines and channels only transport these independent pure values,
collected in input order). -/
def findMatchRefs (content : List Nat) (matchDistance matchLength : Nat) :
    List Reference :=
  (List.range content.length).map fun i =>
    matchSearchBuffer ((content.take i).drop (i - matchDistance))
      [content.getD i 0]
      ((content.take (min content.length (i + matchLength))).drop (i + 1))

/-- Main loop of `lzss.compress` over the per-position references, with the
`nextRunesToIgnore` skip counter. -/
def lzssCompressLoop : List Reference → Nat → List Nat
  | [], _ => []
  | ref :: rest, ignore =>
    if ignore > 0 then lzssCompressLoop rest (ignore - 1)
    else if ref.IsRef then
      let encoding := getSymbolEncoded ref.NegativeOffset ref.Size
      if encoding.length < ref.Size then
        encoding ++ lzssCompressLoop rest (ref.Size - 1)
      else ref.Value.headD 0 :: lzssCompressLoop rest 0
    else ref.Value ++ lzssCompressLoop rest 0

/-- `lzss.compress`: escape, match every position, and emit literals or
textual back-references. -/
def lzssCompress (content : List Nat) (matchDistance matchLength : Nat) :
    List Nat :=
  let contentRune := escapeConflictingSymbols (goStringToRunes content)
  goRunesToBytes
    (lzssCompressLoop (findMatchRefs contentRune matchDistance matchLength) 0)

/-- `strconv.Atoi` on a rune sequence: all-digit, non-empty decimal parse. -/
def parseAtoi (runes : List Nat) : Option Nat :=
  if runes = [] ∨ ¬ runes.all (fun r => 48 ≤ r ∧ r ≤ 57) then none
  else some (runes.foldl (fun acc r => acc * 10 + (r - 48)) 0)

/-- `lzss.replaceRef`: `content[refIdx-negOffset : refIdx-negOffset+length]`;
`none` models the Go slice panic when the range leaves the buffer. -/
def replaceRef (content : List Nat) (refIdx negOffset length : Nat) :
    Option (List Nat) :=
  if negOffset ≤ refIdx ∧ refIdx - negOffset + length ≤ content.length then
    some ((content.drop (refIdx - negOffset)).take length)
  else none

/-- Loop of `lzss.decodeBackRefs`.  `escRun` counts the escape runes
immediately before the current position, which is exactly what
`countEscapesInReverse(refedContent, i-1)` computes; `refOn`, `refValue`,
`currentNegOffset` and `currentRefStart` are the Go locals (`currentRefStart`
is the output length captured when the opening bracket was seen). -/
def decodeBackRefsLoop :
    List Nat → Bool → List Nat → Nat → Nat → Nat → List Nat → Option (List Nat)
  | [], _, _, _, _, _, derefed => some derefed
  | r :: rest, refOn, refValue, negOffset, refStart, escRun, derefed =>
    if refOn = false ∧ r = Opening ∧ escRun % 2 = 0 then
      decodeBackRefsLoop rest true [] negOffset derefed.length 0 derefed
    else if refOn then
      if r = Separator then do
        let n ← parseAtoi refValue
        decodeBackRefsLoop rest true [] n refStart 0 derefed
      else if r = Closing then do
        let len ← parseAtoi refValue
        let sub ← replaceRef derefed refStart negOffset len
        decodeBackRefsLoop rest false refValue negOffset refStart 0 (derefed ++ sub)
      else
        decodeBackRefsLoop rest true (refValue ++ [r]) negOffset refStart 0 derefed
    else
      decodeBackRefsLoop rest false refValue negOffset refStart
        (if r = Escape then escRun + 1 else 0) (derefed ++ [r])

/-- `lzss.decodeBackRefs`. -/
def decodeBackRefs (refedContent : List Nat) : Option (List Nat) :=
  decodeBackRefsLoop refedContent false [] 0 0 0 []

/-- `lzss.removeEscapes` processed from the tail end (the Go loop runs
`i = len-1 .. 0` and reverses its accumulator at the end); input here is the
already-reversed content. -/
def removeEscapesRev : List Nat → Option (List Nat)
  | [] => some []
  | r :: rest =>
    if r ∈ conflictingLiterals then
      match rest with
      | e :: rest2 =>
        if e = Escape then (removeEscapesRev rest2).map (r :: ·) else none
      | [] => none
    else (removeEscapesRev rest).map (r :: ·)

/-- `lzss.removeEscapes`. -/
def removeEscapes (content : List Nat) : Option (List Nat) :=
  (removeEscapesRev content.reverse).map List.reverse

/-- `lzss.decompress`. -/
def lzssDecompress (content : List Nat) : Option (List Nat) := do
  let contentRune := goStringToRunes content
  let derefed ← decodeBackRefs contentRune
  let cleaned ← removeEscapes derefed
  pure (goRunesToBytes cleaned)

/-! ## Huffman frequency tree (`huffman/utils.go`: `buildTree` and the heap
on `(frequency, id)`). -/

/-- The `huffmanTree` interface: `huffmanLeaf` and `huffmanNode`. -/
inductive GoHuffTree where
  | leaf (freq id symbol : Nat)
  | node (freq id : Nat) (left right : GoHuffTree)
  deriving Repr

/-- `getFrequency`. -/
def treeFreq : GoHuffTree → Nat
  | .leaf f _ _ => f
  | .node f _ _ _ => f

/-- `getId`. -/
def treeId : GoHuffTree → Nat
  | .leaf _ i _ => i
  | .node _ i _ _ => i

/-- The heap ordering `huffmanHeap.Less`: by frequency, ties by id. -/
def lessTree (a b : GoHuffTree) : Bool :=
  treeFreq a < treeFreq b ∨ (treeFreq a = treeFreq b ∧ treeId a < treeId b)

/-- `heap.Pop` on the `(frequency, id)` min-heap: the ids of all entries are
distinct, so the heap always pops the unique `Less`-least element. -/
def popMin : List GoHuffTree → Option (GoHuffTree × List GoHuffTree)
  | [] => none
  | t :: rest =>
    match popMin rest with
    | none => some (t, [])
    | some (m, others) =>
      if lessTree m t then some (m, t :: others) else some (t, rest)

/-- Merge loop of `buildTree`: while more than one tree remains, pop the two
least and push their parent with the next id; the final `heap.Pop` on an
empty heap is the Go runtime panic, modelled as `none`.  Fuel is the initial
tree count (each merge shrinks the heap by one). -/
def buildTreeLoop : Nat → Nat → List GoHuffTree → Option GoHuffTree
  | 0, _, trees => (popMin trees).map Prod.fst
  | fuel + 1, monoId, trees =>
    if trees.length > 1 then do
      let x ← popMin trees
      let y ← popMin x.2
      buildTreeLoop fuel (monoId + 1)
        (y.2 ++ [.node (treeFreq x.1 + treeFreq y.1) monoId x.1 y.1])
    else (popMin trees).map Prod.fst

/-- `huffman.buildTree`: `symbolFreq` lists `(symbol, frequency)` pairs in
ascending symbol order (Go sorts the map keys), leaves get ids `0, 1, …` in
that order. -/
def buildTree (symbolFreq : List (Nat × Nat)) : Option GoHuffTree :=
  buildTreeLoop symbolFreq.length symbolFreq.length
    (symbolFreq.enum.map fun p => .leaf p.2.2 p.1 p.2.1)

/-! ## Plain-Huffman codec (`huffman/compression.go`,
`huffman/decompression.go`). -/

/-- Insertion step of a simple stable sort (kernel-computable stand-in for
the Go sorts, whose comparators below are total orders with distinct keys,
so the result is the unique sorted arrangement). -/
def insertSorted (le : α → α → Bool) (x : α) : List α → List α
  | [] => [x]
  | y :: rest => if le x y then x :: y :: rest else y :: insertSorted le x rest

/-- Sort a list by the boolean comparator `le`. -/
def sortByGo (le : α → α → Bool) (l : List α) : List α :=
  l.foldr (insertSorted le) []

/-- The distinct elements of `l` in first-occurrence order (the key set of a
Go map built by insertion). -/
def collectKeys (l : List Nat) : List Nat :=
  l.foldl (fun acc r => if r ∈ acc then acc else acc ++ [r]) []

/-- Symbol frequencies of the rune content as sorted `(symbol, count)`
pairs.  The Go `map[rune]int` iteration order is unspecified; the sorted
order is fixed here (it matches the id assignment in `buildTree`, and no
claim depends on the header pair order). -/
def sortedFreqPairs (runes : List Nat) : List (Nat × Nat) :=
  (sortByGo (fun a b => a ≤ b) (collectKeys runes)).map fun k => (k, runes.count k)

/-- `getSymbolEncoding`: the bit string of every leaf, `0` for left and `1`
for right (a root that is a leaf gets the empty prefix). -/
def collectEnc : GoHuffTree → List Bool → List (Nat × List Bool)
  | .leaf _ _ sym, pfx => [(sym, pfx)]
  | .node _ _ l r, pfx =>
    collectEnc l (pfx ++ [false]) ++ collectEnc r (pfx ++ [true])

/-- The encoding loop of `huffman.encode`: concatenate each input symbol's
code (`none` models the `os.Exit` on a symbol missing from the map). -/
def encodeSymbols (enc : List (Nat × List Bool)) : List Nat → Option (List Bool)
  | [] => some []
  | s :: rest => do
    let e ← enc.lookup s
    let tl ← encodeSymbols enc rest
    pure (e ++ tl)

/-- `strconv.ParseUint(chunk, 2, 8)`: a binary digit string MSB-first to a
number. -/
def bitsToNat (b : List Bool) : Nat :=
  b.foldl (fun acc bit => 2 * acc + bit.toNat) 0

/-- The low `k` bits of `n`, MSB-first (`fmt %0*b`). -/
def toBitsLen : Nat → Nat → List Bool
  | 0, _ => []
  | k + 1, n => toBitsLen k (n / 2) ++ [decide (n % 2 = 1)]

/-- One byte as its `%08b` bit string. -/
def toBits8 (n : Nat) : List Bool := toBitsLen 8 n

/-- `strconv.FormatInt(n, 2)` as a bit list (MSB-first, no leading zeros,
`0` for zero). -/
def natBinaryBits (n : Nat) : List Bool :=
  (Nat.toDigits 2 n).map fun c => c = '1'

/-- Fueled recursion of `asByteSlice` (each step chops 8 bits off the end,
so fuel `b.length` is always sufficient; the fuel-0 arm is unreachable with
that fuel). -/
def asByteSliceAux : Nat → List Bool → List Nat
  | 0, b => if b.length = 0 then [] else [bitsToNat b]
  | fuel + 1, b =>
    if b.length = 0 then []
    else if b.length ≤ 8 then [bitsToNat b]
    else asByteSliceAux fuel (b.take (b.length - 8)) ++
      [bitsToNat (b.drop (b.length - 8))]

/-- `bitString.asByteSlice`: the Go loop walks the bit string from the end
in 8-bit chunks and reverses its output, so the first byte holds the
leftover `length % 8` leading bits (zero-extended by `ParseUint`) and every
following byte holds 8 bits. -/
def asByteSlice (b : List Bool) : List Nat :=
  asByteSliceAux b.length b

/-- `huffman.compress` without the header: frequency map, tree, and the
encoded bit string of the content. -/
def huffmanBits (content : List Nat) : Option (List Bool) := do
  let runes := goStringToRunes content
  let tree ← buildTree (sortedFreqPairs runes)
  encodeSymbols (collectEnc tree []) runes

/-- Header text of `huffman.compress`: `freq|sym` pairs, `\n` written as the
two characters `\` `n`. -/
def huffmanHeaderRunes (freqPairs : List (Nat × Nat)) : List Nat :=
  freqPairs.flatMap fun p =>
    natDecRunes p.2 ++ 124 :: (if p.1 = 10 then [92, 110] else [p.1])

/-- `huffman.compress` / `huffman.encode`: header, the terminator `\`+LF,
the padding byte (`asByteSlice` of `FormatInt(pad, 2)`), then the packed
payload. -/
def huffmanCompress (content : List Nat) : Option (List Nat) := do
  let bits ← huffmanBits content
  pure (goRunesToBytes (huffmanHeaderRunes (sortedFreqPairs (goStringToRunes content))) ++
    92 :: 10 :: asByteSlice (natBinaryBits ((8 - bits.length % 8) % 8)) ++
    asByteSlice bits)

/-- Payload-bit recovery of `huffman.decode`: the first byte after the
terminator is the pad count, the rest are expanded to `%08b` strings and the
first `offset` characters are dropped. -/
def decodeHuffmanPayload (contentBytes : List Nat) : List Bool :=
  match contentBytes with
  | [] => []
  | offsetByte :: rest => ((rest.map toBits8).flatten).drop offsetByte

/-- Modelled from the spec: the packing convention C7 asserts, with the
padding zeros added onto the end of the final payload byte (bits are chunked
MSB-first from the front and the last partial chunk is left-aligned).  Fuel
as in `asByteSliceAux`. -/
def specEndPadPackAux : Nat → List Bool → List Nat
  | 0, _ => []
  | fuel + 1, bits =>
    if bits.length = 0 then []
    else if bits.length ≤ 8 then [bitsToNat bits * 2 ^ (8 - bits.length)]
    else bitsToNat (bits.take 8) :: specEndPadPackAux fuel (bits.drop 8)

/-- Modelled from the spec: end-padded packing, see `specEndPadPackAux`. -/
def specEndPadPack (bits : List Bool) : List Nat :=
  specEndPadPackAux bits.length bits

theorem bitsToNat_append_bit (b : List Bool) (x : Bool) :
    bitsToNat (b ++ [x]) = 2 * bitsToNat b + x.toNat := by
  simp [bitsToNat, List.foldl_append]

theorem toBitsLen_zero (k : Nat) : toBitsLen k 0 = List.replicate k false := by
  induction k with
  | zero => rfl
  | succ k ih =>
    show toBitsLen k 0 ++ [decide (0 % 2 = 1)] = _
    rw [ih, List.replicate_succ']
    rfl

theorem toBitsLen_bitsToNat (b : List Bool) : ∀ k, b.length ≤ k →
    toBitsLen k (bitsToNat b) = List.replicate (k - b.length) false ++ b := by
  induction b using List.reverseRecOn with
  | nil =>
    intro k _
    simpa [bitsToNat] using toBitsLen_zero k
  | append_singleton b x ih =>
    intro k hk
    match k with
    | 0 => simp at hk
    | k + 1 =>
      rw [bitsToNat_append_bit]
      show toBitsLen k ((2 * bitsToNat b + x.toNat) / 2) ++
        [decide ((2 * bitsToNat b + x.toNat) % 2 = 1)] = _
      have hdiv : (2 * bitsToNat b + x.toNat) / 2 = bitsToNat b := by
        cases x <;> simp only [Bool.toNat_false, Bool.toNat_true] <;> omega
      have hmod : decide ((2 * bitsToNat b + x.toNat) % 2 = 1) = x := by
        cases x
        · simp only [Bool.toNat_false, Nat.add_zero, decide_eq_false_iff_not]
          omega
        · simp only [Bool.toNat_true, decide_eq_true_eq]
          omega
      have hble : b.length ≤ k := by
        simp at hk
        omega
      rw [hdiv, hmod, ih k hble]
      have hlen : k + 1 - (b ++ [x]).length = k - b.length := by
        simp
      rw [hlen, List.append_assoc]

theorem singleChunk_unpack (b : List Bool) (h8 : b.length ≤ 8) :
    (([bitsToNat b]).map toBits8).flatten = List.replicate (8 - b.length) false ++ b := by
  simp only [List.map_cons, List.map_nil, List.flatten_cons, List.flatten_nil,
    List.append_nil, toBits8]
  exact toBitsLen_bitsToNat b 8 h8

theorem asByteSliceAux_unpack (fuel : Nat) : ∀ b : List Bool, b.length ≤ fuel →
    ((asByteSliceAux fuel b).map toBits8).flatten =
      List.replicate ((8 - b.length % 8) % 8) false ++ b := by
  induction fuel with
  | zero =>
    intro b hb
    have h0 : b = [] := List.length_eq_zero.mp (by omega)
    subst h0
    simp [asByteSliceAux]
  | succ fuel ih =>
    intro b hb
    show (((if b.length = 0 then []
      else if b.length ≤ 8 then [bitsToNat b]
      else asByteSliceAux fuel (b.take (b.length - 8)) ++
        [bitsToNat (b.drop (b.length - 8))]) : List Nat).map toBits8).flatten = _
    by_cases h0 : b.length = 0
    · rw [if_pos h0, List.length_eq_zero.mp h0]
      simp
    · rw [if_neg h0]
      by_cases h8 : b.length ≤ 8
      · rw [if_pos h8, singleChunk_unpack b h8]
        have hp : 8 - b.length = (8 - b.length % 8) % 8 := by omega
        rw [hp]
      · rw [if_neg h8]
        have hlen1 : (b.take (b.length - 8)).length = b.length - 8 := by
          simp
        have hlen2 : (b.drop (b.length - 8)).length = 8 := by
          simp
          omega
        rw [List.map_append, List.flatten_append]
        rw [ih (b.take (b.length - 8)) (by omega)]
        have hb2 : (([bitsToNat (b.drop (b.length - 8))]).map toBits8).flatten
            = b.drop (b.length - 8) := by
          rw [singleChunk_unpack _ (le_of_eq hlen2), hlen2]
          simp
        rw [hb2, hlen1]
        have hpad : (8 - (b.length - 8) % 8) % 8 = (8 - b.length % 8) % 8 := by
          omega
        rw [hpad, List.append_assoc, List.take_append_drop]

theorem asByteSlice_unpack (b : List Bool) :
    ((asByteSlice b).map toBits8).flatten =
      List.replicate ((8 - b.length % 8) % 8) false ++ b :=
  asByteSliceAux_unpack b.length b (le_refl _)

theorem padByte_bytes (p : Nat) (hp : p < 8) :
    asByteSlice (natBinaryBits p) = [p] := by
  revert p
  decide

/-- C7 counterexample at the concrete input `"ab"` (`[97, 98]`): the encoder
bit string is `01`, the emitted payload byte is `0x01` (padding zeros at the
front of the first byte), while the convention asserted by the claim (zeros
added onto the end of the final payload byte) would give `0x40`. -/
theorem huffman_padding_counterexample :
    huffmanBits [97, 98] = some [false, true] ∧
    huffmanCompress [97, 98] = some [49, 124, 97, 49, 124, 98, 92, 10, 6, 1] ∧
    specEndPadPack [false, true] = [64] ∧
    asByteSlice [false, true] ≠ specEndPadPack [false, true] :=
  ⟨by decide, by decide, by decide, by decide⟩

/-- C7 amended: the plain-Huffman output is the textual frequency header
terminated by backslash-newline, then one pad-count byte, then the payload;
the pad-count byte equals the number of zero padding bits added at the
*front of the first* payload byte, and dropping that many bits from the
front of the payload bit string recovers the encoder bit string exactly. -/
theorem huffman_padding_amended (content : List Nat) (bits : List Bool)
    (h : huffmanBits content = some bits) :
    huffmanCompress content = some
      (goRunesToBytes (huffmanHeaderRunes (sortedFreqPairs (goStringToRunes content))) ++
        92 :: 10 :: ((8 - bits.length % 8) % 8) :: asByteSlice bits) ∧
    decodeHuffmanPayload (((8 - bits.length % 8) % 8) :: asByteSlice bits) = bits := by
  constructor
  · rw [huffmanCompress, h]
    show some _ = some _
    rw [padByte_bytes _ (by omega)]
    simp
  · show ((asByteSlice bits).map toBits8).flatten.drop ((8 - bits.length % 8) % 8) = bits
    rw [asByteSlice_unpack]
    simp

/-- Witness for C7 (amended) at the input `"ab"`. -/
theorem huffman_padding_amended_witness :
    huffmanCompress [97, 98] = some
      (goRunesToBytes (huffmanHeaderRunes (sortedFreqPairs (goStringToRunes [97, 98]))) ++
        92 :: 10 :: ((8 - ([false, true] : List Bool).length % 8) % 8) ::
          asByteSlice [false, true]) ∧
    decodeHuffmanPayload (((8 - ([false, true] : List Bool).length % 8) % 8) ::
      asByteSlice [false, true]) = [false, true] :=
  huffman_padding_amended [97, 98] [false, true] (by decide)

/-! ## Canonical Huffman encoder and decoder (`huffman/utils.go`:
`BuildCanonicalHuffmanEncoder`, `BuildCanonicalHuffmanDecoder`,
`buildCanonicalHuffmanTree`). -/

/-- The `dfs` closure of `BuildCanonicalHuffmanEncoder`: `(symbol, depth)`
of every leaf, left to right. -/
def treeDepths : GoHuffTree → Nat → List (Nat × Nat)
  | .leaf _ _ sym, d => [(sym, d)]
  | .node _ _ l r, d => treeDepths l (d + 1) ++ treeDepths r (d + 1)

/-- The `lengths` array: leaf depths indexed by symbol, except that a root
that is itself a leaf gets length 1. -/
def lengthsOf (size : Nat) (root : GoHuffTree) : List Nat :=
  match root with
  | .leaf _ _ sym => (List.replicate size 0).set sym 1
  | _ => (treeDepths root 0).foldl (fun acc p => acc.set p.1 p.2)
      (List.replicate size 0)

/-- The `(length, symbol)` comparator of the `sort.Slice` calls. -/
def ordLenSym (a b : Nat × Nat) : Bool :=
  a.2 < b.2 ∨ (a.2 = b.2 ∧ a.1 ≤ b.1)

/-- The `nextBaseCode` loop: `code = (code + lengthCounts[i-1]) << 1` for
`i = 1 .. maxLength`, accumulating from 0. -/
def nextBaseGo : List Nat → Nat → List Nat
  | [], _ => []
  | c :: rest, code => ((code + c) <<< 1) :: nextBaseGo rest ((code + c) <<< 1)

/-- `nextBaseCode` as a list indexed by code length (`[0]` unused and 0). -/
def nextBaseCodeList (counts : List Nat) : List Nat :=
  0 :: nextBaseGo counts.dropLast 0

/-- `lengthCounts`: how many symbols have each non-zero length. -/
def lengthCountsOf (lengths : List Nat) (maxLength : Nat) : List Nat :=
  (List.range (maxLength + 1)).map fun l => if l = 0 then 0 else lengths.count l

/-- The canonical-code assignment loop: in `(length, symbol)` order give each
symbol the next base code of its length. -/
def assignCodesGo :
    List (Nat × Nat) → List (Option (Nat × Nat)) → List Nat →
      List (Option (Nat × Nat))
  | [], out, _ => out
  | p :: rest, out, bases =>
    let code := bases.getD p.2 0
    assignCodesGo rest (out.set p.1 (some (code, p.2))) (bases.set p.2 (code + 1))

/-- `huffman.BuildCanonicalHuffmanEncoder`: code table (`(code, length)` per
symbol, `none` for absent symbols); fails when the natural tree depth
exceeds `lengthLimit` or (Go heap panic) when no symbol has positive
frequency. -/
def BuildCanonicalHuffmanEncoder (symbolFreq : List Nat) (lengthLimit : Nat) :
    Option (List (Option (Nat × Nat))) :=
  let pairs := symbolFreq.enum.filterMap fun p =>
    if p.2 > 0 then some (p.1, p.2) else none
  match buildTree pairs with
  | none => none
  | some root =>
    let lengths := lengthsOf symbolFreq.length root
    let maxLength := lengths.foldl max 0
    if maxLength > lengthLimit then none
    else
      let order := sortByGo ordLenSym (lengths.enum.filterMap fun p =>
        if p.2 ≠ 0 then some (p.1, p.2) else none)
      let bases := nextBaseCodeList (lengthCountsOf lengths maxLength)
      some (assignCodesGo order (List.replicate symbolFreq.length none) bases)

/-- `huffman.CanonicalHuffmanNode`; `nil` is the Go nil pointer. -/
inductive CHNode where
  | nil
  | mk (isLeaf : Bool) (symbol length : Nat) (left right : CHNode)
  deriving Repr, DecidableEq

/-- `huffman.buildCanonicalHuffmanTree`: walk the (already bit-reversed)
code LSB-first, creating missing children, and install the item when the
length is exhausted (keeping existing children, which become unreachable);
`none` is the `"nooooo leaf"` panic when descending through a leaf. -/
def insertCH : Nat → CHNode → Nat → Nat → Nat → Option CHNode
  | 0, node, sym, len, _ =>
    match node with
    | .nil => some (.mk true sym len .nil .nil)
    | .mk _ _ _ l r => some (.mk true sym len l r)
  | lr + 1, node, sym, len, code =>
    match node with
    | .mk true _ _ _ _ => none
    | .nil =>
      if code &&& 1 = 0 then
        (insertCH lr .nil sym len (code >>> 1)).map fun c => .mk false 0 0 c .nil
      else
        (insertCH lr .nil sym len (code >>> 1)).map fun c => .mk false 0 0 .nil c
    | .mk false s l left right =>
      if code &&& 1 = 0 then
        (insertCH lr left sym len (code >>> 1)).map fun c => .mk false s l c right
      else
        (insertCH lr right sym len (code >>> 1)).map fun c => .mk false s l left c

/-- Insertion loop of `BuildCanonicalHuffmanDecoder` over the canonical
order, with the per-length running base codes. -/
def buildDecoderGo : List (Nat × Nat) → CHNode → List Nat → Option CHNode
  | [], tree, _ => some tree
  | p :: rest, tree, bases => do
    let code := bases.getD p.2 0
    let t2 ← insertCH p.2 tree p.1 p.2 (Reverse code p.2)
    buildDecoderGo rest t2 (bases.set p.2 (code + 1))

/-- `huffman.BuildCanonicalHuffmanDecoder`. -/
def BuildCanonicalHuffmanDecoder (lengths : List Nat) : Option CHNode :=
  let maxLength := lengths.foldl max 0
  let order := sortByGo ordLenSym (lengths.enum.filterMap fun p =>
    if p.2 ≠ 0 then some (p.1, p.2) else none)
  let bases := nextBaseCodeList (lengthCountsOf lengths maxLength)
  buildDecoderGo order (.mk false 0 0 .nil .nil) bases

/-! ## DEFLATE alphabets and tokens (`flate/inflate.go`). -/

/-- `flate.maxAllowedBackwardDistance`. -/
def maxAllowedBackwardDistance : Nat := 32768

/-- `flate.maxAllowedMatchLength`. -/
def maxAllowedMatchLength : Nat := 258

/-- `lenAlphabets.Alphabets[code].ExtraBits` (zero on a map miss). -/
def lenAlphabetExtraBits : Nat → Nat
  | 265 | 266 | 267 | 268 => 1
  | 269 | 270 | 271 | 272 => 2
  | 273 | 274 | 275 | 276 => 3
  | 277 | 278 | 279 | 280 => 4
  | 281 | 282 | 283 | 284 => 5
  | _ => 0

/-- `lenAlphabets.Alphabets[code].Base` (zero on a map miss). -/
def lenAlphabetBase : Nat → Nat
  | 257 => 3 | 258 => 4 | 259 => 5 | 260 => 6 | 261 => 7 | 262 => 8
  | 263 => 9 | 264 => 10 | 265 => 11 | 266 => 13 | 267 => 15 | 268 => 17
  | 269 => 19 | 270 => 23 | 271 => 27 | 272 => 31 | 273 => 35 | 274 => 43
  | 275 => 51 | 276 => 59 | 277 => 67 | 278 => 83 | 279 => 99 | 280 => 115
  | 281 => 131 | 282 => 163 | 283 => 195 | 284 => 227 | 285 => 258
  | _ => 0

/-- `lenAlphabets.KeyOrder`. -/
def lenKeyOrder : List Nat :=
  [257, 258, 259, 260, 261, 262, 263, 264, 265, 266, 267, 268, 269, 270,
   271, 272, 273, 274, 275, 276, 277, 278, 279, 280, 281, 282, 283, 284, 285]

/-- `distAlphabets.Alphabets[code].ExtraBits` (zero on a map miss). -/
def distAlphabetExtraBits : Nat → Nat
  | 4 | 5 => 1
  | 6 | 7 => 2
  | 8 | 9 => 3
  | 10 | 11 => 4
  | 12 | 13 => 5
  | 14 | 15 => 6
  | 16 | 17 => 7
  | 18 | 19 => 8
  | 20 | 21 => 9
  | 22 | 23 => 10
  | 24 | 25 => 11
  | 26 | 27 => 12
  | 28 | 29 => 13
  | _ => 0

/-- `distAlphabets.Alphabets[code].Base` (zero on a map miss). -/
def distAlphabetBase : Nat → Nat
  | 0 => 1 | 1 => 2 | 2 => 3 | 3 => 4 | 4 => 5 | 5 => 7 | 6 => 9 | 7 => 13
  | 8 => 17 | 9 => 25 | 10 => 33 | 11 => 49 | 12 => 65 | 13 => 97
  | 14 => 129 | 15 => 193 | 16 => 257 | 17 => 385 | 18 => 513 | 19 => 769
  | 20 => 1025 | 21 => 1537 | 22 => 2049 | 23 => 3073 | 24 => 4097
  | 25 => 6145 | 26 => 8193 | 27 => 12289 | 28 => 16385 | 29 => 24577
  | _ => 0

/-- `rleAlphabets.Alphabets[code].ExtraBits` (zero for the literal codes and
on a map miss). -/
def rleAlphabetExtraBits : Nat → Nat
  | 16 => 2
  | 17 => 3
  | 18 => 7
  | _ => 0

/-- `rleAlphabets.Alphabets[code].Base` (the code itself for literal codes
`0..15`, zero on a map miss). -/
def rleAlphabetBase (code : Nat) : Nat :=
  if code ≤ 15 then code
  else if code = 16 then 3
  else if code = 17 then 3
  else if code = 18 then 11
  else 0

/-- `rleAlphabets.KeyOrder` (the RFC 1951 header transmission order). -/
def rleKeyOrder : List Nat :=
  [16, 17, 18, 0, 8, 7, 9, 6, 10, 5, 11, 4, 12, 3, 13, 2, 14, 1, 15]

/-- `flate.TokenKind`. -/
inductive TokenKind where
  | literalToken
  | matchToken
  | endOfBlockToken
  deriving Repr, DecidableEq

/-- `flate.Token` with Go zero values for unassigned fields. -/
structure Token where
  Kind : TokenKind
  Value : Nat := 0
  Length : Nat := 0
  Distance : Nat := 0
  DistanceCode : Nat := 0
  DistanceOffset : Nat := 0
  LengthCode : Nat := 0
  LengthOffset : Nat := 0
  deriving Repr, DecidableEq

/-- `flate.tokeniseLZSS` with the `nextRunesToIgnore` counter: references
that are no match or shorter than 3 become literal tokens (one per UTF-8
byte of the rune), longer ones a match token after the overlap and bound
checks. -/
def tokeniseLZSS : List Reference → Nat → Option (List Token)
  | [], _ => some []
  | ref :: rest, ignore =>
    if ignore > 0 then tokeniseLZSS rest (ignore - 1)
    else if ¬ref.IsRef ∨ ref.Size < 3 then
      (tokeniseLZSS rest 0).map fun tl =>
        ((goRunesToBytes [ref.Value.headD 0]).map fun b =>
          { Kind := .literalToken, Value := b }) ++ tl
    else if ref.Size > ref.NegativeOffset then none
    else if ref.Size > maxAllowedMatchLength then none
    else if ref.NegativeOffset > maxAllowedBackwardDistance then none
    else (tokeniseLZSS rest (ref.Size - 1)).map fun tl =>
      { Kind := .matchToken, Length := ref.Size, Distance := ref.NegativeOffset } :: tl

/-- Search loop of `(*LitLengthCode).FindCode` over `lenAlphabets.KeyOrder`
(`key+1 = 286` is the missing-next-entry case). -/
def llcFindCodeLoop : List Nat → Nat → Option (Nat × Nat)
  | [], _ => none
  | key :: rest, value =>
    if lenAlphabetBase key ≤ value ∧ (key + 1 = 286 ∨ value < lenAlphabetBase (key + 1)) then
      some (key, value - lenAlphabetBase key)
    else llcFindCodeLoop rest value

/-- `(*LitLengthCode).FindCode`. -/
def llcFindCode (value : Nat) : Option (Nat × Nat) :=
  if value < 3 ∨ value > maxAllowedMatchLength then none
  else llcFindCodeLoop lenKeyOrder value

/-- Search loop of `(*DistanceCode).FindCode` (the Go map iteration order is
unspecified but the matching entry is unique, so iterating `0..29`
deterministically yields the same result). -/
def dcFindCodeLoop : List Nat → Nat → Option (Nat × Nat)
  | [], _ => none
  | i :: rest, value =>
    if distAlphabetBase i ≤ value ∧ (i + 1 = 30 ∨ value < distAlphabetBase (i + 1)) then
      some (i, value - distAlphabetBase i)
    else dcFindCodeLoop rest value

/-- `(*DistanceCode).FindCode`. -/
def dcFindCode (value : Nat) : Option (Nat × Nat) :=
  if value < 1 ∨ value > maxAllowedBackwardDistance then none
  else dcFindCodeLoop (List.range 30) value

/-- Token loop of `(*LitLengthCode).Encode`: count literal bytes, assign
length codes to matches and count them. -/
def llcEncodeLoop : List Token → List Nat → Option (List Token × List Nat)
  | [], freq => some ([], freq)
  | t :: rest, freq =>
    if t.Kind = .literalToken then
      (llcEncodeLoop rest (freq.set t.Value (freq.getD t.Value 0 + 1))).map
        fun r => (t :: r.1, r.2)
    else do
      let co ← llcFindCode t.Length
      let t2 := { t with LengthCode := co.1, LengthOffset := co.2 }
      (llcEncodeLoop rest (freq.set co.1 (freq.getD co.1 0 + 1))).map
        fun r => (t2 :: r.1, r.2)

/-- Item loop of `flate.findLengthBoundary`: lengths up to the index
threshold are always kept, afterwards runs of zeros are only kept when a
later non-zero length flushes them, and a length above the limit fails. -/
def flbLoop (threshold limit : Nat) :
    List (Nat × Option (Nat × Nat)) → List Nat → Option (List Nat)
  | [], _ => some []
  | p :: rest, zeros =>
    if p.1 ≤ threshold then
      (flbLoop threshold limit rest zeros).map fun tl =>
        (match p.2 with | none => 0 | some c => c.2) :: tl
    else match p.2 with
      | none => flbLoop threshold limit rest (zeros ++ [0])
      | some c =>
        if c.2 = 0 then flbLoop threshold limit rest (zeros ++ [0])
        else if c.2 > limit then none
        else (flbLoop threshold limit rest []).map fun tl => zeros ++ c.2 :: tl

/-- `flate.findLengthBoundary`. -/
def findLengthBoundary (items : List (Option (Nat × Nat)))
    (threshold limit : Nat) : Option (List Nat) :=
  flbLoop threshold limit items.enum []

/-- `(*LitLengthCode).Encode`: returns the updated tokens, the canonical
code table (`LitLengthHuffman`) and the truncated length vector. -/
def llcEncode (tokens : List Token) :
    Option (List Token × List (Option (Nat × Nat)) × List Nat) := do
  let r ← llcEncodeLoop tokens (List.replicate 286 0)
  let freq := r.2.set 256 (r.2.getD 256 0 + 1)
  let table ← BuildCanonicalHuffmanEncoder freq 15
  let lengths ← findLengthBoundary table 256 15
  pure (r.1, table, lengths)

/-- Token loop of `(*DistanceCode).Encode`: assign distance codes to match
tokens and count them. -/
def dcEncodeLoop : List Token → List Nat → Option (List Token × List Nat)
  | [], freq => some ([], freq)
  | t :: rest, freq =>
    if t.Kind = .matchToken then do
      let co ← dcFindCode t.Distance
      let t2 := { t with DistanceCode := co.1, DistanceOffset := co.2 }
      (dcEncodeLoop rest (freq.set co.1 (freq.getD co.1 0 + 1))).map
        fun r => (t2 :: r.1, r.2)
    else
      (dcEncodeLoop rest freq).map fun r => (t :: r.1, r.2)

/-- `(*DistanceCode).Encode`. -/
def dcEncode (tokens : List Token) :
    Option (List Token × List (Option (Nat × Nat)) × List Nat) := do
  let r ← dcEncodeLoop tokens (List.replicate 30 0)
  let table ← BuildCanonicalHuffmanEncoder r.2 15
  let lengths ← findLengthBoundary table 0 15
  pure (r.1, table, lengths)

/-- `(*CodeLengthCode).Encode`: run-length-encode the concatenated length
vector, build the 7-bit-capped code-length code, and emit its lengths in
`rleAlphabets.KeyOrder` truncated after the last non-zero (threshold 3). -/
def clcEncode (lengthHuffmanLengths : List Nat) :
    Option (List (Nat × Nat) × List (Option (Nat × Nat)) × List Nat) := do
  let condensed ← clcFindCode lengthHuffmanLengths
  let freq := condensed.foldl (fun acc c => acc.set c.1 (acc.getD c.1 0 + 1))
    (List.replicate 19 0)
  let table ← BuildCanonicalHuffmanEncoder freq 7
  let shuffled := rleKeyOrder.map fun key => table.getD key none
  let clens ← findLengthBoundary shuffled 3 7
  pure (condensed, table, clens)

/-! ## Bit-level writer and reader (`flate/inflate.go`:
`writeCompressedContent`, `flushAlign`, `readCompressedContent`). -/

/-- The `bitBuffer` plus the output bytes accumulated so far. -/
structure BitWriterState where
  bitsHolder : Nat
  bitsCount : Nat
  out : List Nat
  deriving Repr, DecidableEq

/-- The `for bb.bitsCount >= 8` flush loop: emit the low byte, shift right
by 8.  The count is at most 39, so fuel 5 always completes the loop. -/
def flushBytes : Nat → Nat → Nat → List Nat → Nat × Nat × List Nat
  | 0, holder, count, out => (holder, count, out)
  | fuel + 1, holder, count, out =>
    if 8 ≤ count then
      flushBytes fuel (holder >>> 8) (count - 8) (out ++ [holder &&& 0xFF])
    else (holder, count, out)

/-- Fueled recursion of `writeCompressedContent`: each pass consumes
`trimbits = min nbits (32 - bitsCount) ≥ 1` bits (the bit count stays below
8 between calls, so fuel `nbits` always suffices). -/
def writeBitsAux : Nat → BitWriterState → Nat → Nat → BitWriterState
  | 0, st, _, _ => st
  | fuel + 1, st, value, nbits =>
    if nbits = 0 then st
    else
      let trimbits := min nbits (32 - st.bitsCount)
      let holder := (st.bitsHolder |||
        ((value &&& (2 ^ trimbits - 1)) <<< st.bitsCount)) % 2 ^ 32
      let f := flushBytes 5 holder (st.bitsCount + trimbits) st.out
      writeBitsAux fuel ⟨f.1, f.2.1, f.2.2⟩ (value >>> trimbits) (nbits - trimbits)

/-- `(*CompressionWriter).writeCompressedContent`: append the low `nbits`
bits of `value` LSB-first, emitting completed bytes. -/
def writeCompressedContent (st : BitWriterState) (value nbits : Nat) :
    BitWriterState :=
  writeBitsAux nbits st value nbits

/-- `(*CompressionWriter).flushAlign`: pad the current partial byte with
zero bits; more than 8 buffered bits is an error. -/
def flushAlign (st : BitWriterState) : Option BitWriterState :=
  if st.bitsCount > 8 then none
  else if st.bitsCount > 0 then
    some (writeCompressedContent st 0 (8 - st.bitsCount))
  else some st

/-- The `bitBuffer` plus the remaining input bytes. -/
structure BitReaderState where
  bitsHolder : Nat
  bitsCount : Nat
  input : List Nat
  deriving Repr, DecidableEq

/-- The `for bb.bitsCount < nbits` byte-pull loop of
`readCompressedContent`; `none` is input exhaustion.  Each pull adds 8 to
the count, so fuel `nbits` suffices. -/
def pullBytes : Nat → BitReaderState → Nat → Option BitReaderState
  | 0, bb, _ => some bb
  | fuel + 1, bb, nbits =>
    if bb.bitsCount < nbits then
      match bb.input with
      | [] => none
      | byte :: rest =>
        pullBytes fuel
          ⟨(bb.bitsHolder ||| (byte <<< bb.bitsCount)) % 2 ^ 32,
            bb.bitsCount + 8, rest⟩ nbits
    else some bb

/-- `flate.readCompressedContent`. -/
def readCompressedContent (bb : BitReaderState) (nbits : Nat) :
    Option (Nat × BitReaderState) :=
  if nbits > 32 then none
  else do
    let bb2 ← pullBytes nbits bb nbits
    pure (bb2.bitsHolder &&& ((1 <<< nbits) - 1),
      ⟨bb2.bitsHolder >>> nbits, bb2.bitsCount - nbits, bb2.input⟩)

/-! ## DEFLATE encode (`(*CompressionWriter).compress`). -/

/-- One condensed-header item write: the code-length Huffman code
(bit-reversed) then its extra bits.  The `getD (0, 0)` models the
impossible nil interface dereference: every emitted code has positive
frequency and therefore a table entry. -/
def writeCondensedItem (clcTable : List (Option (Nat × Nat)))
    (st : BitWriterState) (c : Nat × Nat) : BitWriterState :=
  let huff := (clcTable.getD c.1 none).getD (0, 0)
  let s2 := writeCompressedContent st (Reverse huff.1 huff.2) huff.2
  if rleAlphabetExtraBits c.1 > 0 then
    writeCompressedContent s2 c.2 (rleAlphabetExtraBits c.1)
  else s2

/-- One token write: literal code, or length code + extra bits + distance
code + extra bits. -/
def writeTokenItem (litTable distTable : List (Option (Nat × Nat)))
    (st : BitWriterState) (t : Token) : BitWriterState :=
  if t.Kind = .literalToken then
    let huff := (litTable.getD t.Value none).getD (0, 0)
    writeCompressedContent st (Reverse huff.1 huff.2) huff.2
  else
    let lh := (litTable.getD t.LengthCode none).getD (0, 0)
    let s2 := writeCompressedContent st (Reverse lh.1 lh.2) lh.2
    let s3 :=
      if lenAlphabetExtraBits t.LengthCode > 0 then
        writeCompressedContent s2 t.LengthOffset (lenAlphabetExtraBits t.LengthCode)
      else s2
    let dh := (distTable.getD t.DistanceCode none).getD (0, 0)
    let s4 := writeCompressedContent s3 (Reverse dh.1 dh.2) dh.2
    if distAlphabetExtraBits t.DistanceCode > 0 then
      writeCompressedContent s4 t.DistanceOffset (distAlphabetExtraBits t.DistanceCode)
    else s4

/-- `flate.(*CompressionWriter).compress`: tokenize, build the three
canonical codes, and emit one dynamic-Huffman block. -/
def flateCompress (content : List Nat) (btype bfinal : Nat) :
    Option (List Nat) := do
  let contentRune := goStringToRunes content
  let tokens0 ← tokeniseLZSS
    (findMatchRefs contentRune maxAllowedBackwardDistance maxAllowedMatchLength) 0
  let lit ← llcEncode tokens0
  let dist ← dcEncode lit.1
  let clc ← clcEncode (lit.2.2 ++ dist.2.2)
  let HLIT := lit.2.2.length - 257
  let HDIST := dist.2.2.length - 1
  let HCLEN := clc.2.2.length - 4
  let st1 := writeCompressedContent ⟨0, 0, []⟩ bfinal 1
  let st2 := writeCompressedContent st1 btype 2
  let st3 := writeCompressedContent st2 HLIT 5
  let st4 := writeCompressedContent st3 HDIST 5
  let st5 := writeCompressedContent st4 HCLEN 4
  let st6 := clc.2.2.foldl (fun s cl => writeCompressedContent s cl 3) st5
  let st7 := clc.1.foldl (writeCondensedItem clc.2.1) st6
  let st8 := dist.1.foldl (writeTokenItem lit.2.1 dist.2.1) st7
  let eob := (lit.2.1.getD 256 none).getD (0, 0)
  let st9 := writeCompressedContent st8 (Reverse eob.1 eob.2) eob.2
  let stFinal ← flushAlign st9
  pure stFinal.out

/-! ## DEFLATE decode (`(*DecompressionWriter).decompress` and helpers). -/

/-- `(*CodeLengthCode).reshuffle`: place the transmitted 3-bit lengths at
their `KeyOrder` positions in a 19-entry vector. -/
def reshuffle (huffmanLengths : List Nat) : List Nat :=
  huffmanLengths.enum.foldl
    (fun acc p => acc.set (rleKeyOrder.getD p.1 0) p.2)
    (List.replicate 19 0)

/-- Fueled descent of `flate.TraverseHuffmanTree`: one bit per step, `0`
left `1` right; a missing subtree (or a nil root) is a decode failure.  The
fuel bounds the descent depth; every tree built by
`BuildCanonicalHuffmanDecoder` has height at most the maximum code length
(at most 15 here), so fuel 33 never runs out on them. -/
def traverseCHAux : Nat → CHNode → BitReaderState → Option (Nat × BitReaderState)
  | 0, _, _ => none
  | _ + 1, .nil, _ => none
  | _ + 1, .mk true sym _ _ _, bb => some (sym, bb)
  | fuel + 1, .mk false _ _ left right, bb => do
    let r ← readCompressedContent bb 1
    if r.1 = 0 then
      match left with
      | .nil => none
      | l => traverseCHAux fuel l r.2
    else
      match right with
      | .nil => none
      | rt => traverseCHAux fuel rt r.2

/-- `flate.TraverseHuffmanTree`. -/
def traverseCH (node : CHNode) (bb : BitReaderState) :
    Option (Nat × BitReaderState) :=
  traverseCHAux 33 node bb

/-- Read a fixed number of fixed-width fields. -/
def readNChunks : Nat → Nat → BitReaderState → Option (List Nat × BitReaderState)
  | 0, _, bb => some ([], bb)
  | n + 1, width, bb => do
    let r ← readCompressedContent bb width
    let rest ← readNChunks n width r.2
    pure (r.1 :: rest.1, rest.2)

/-- The `expandRule` closure of `ReadCondensedHuffman`: read the extra bits
of an RLE code and expand it against the lengths decoded so far (`none`
covers code 16 on an empty prefix and rules above 18). -/
def expandRule (bb : BitReaderState) (rule : Nat) (concatSoFar : List Nat) :
    Option (List Nat × BitReaderState) := do
  let extraBits := rleAlphabetExtraBits rule
  let r ← if extraBits > 0 then readCompressedContent bb extraBits
    else some (0, bb)
  if rule < 16 then some ([rule], r.2)
  else if rule = 16 then
    match concatSoFar.getLast? with
    | none => none
    | some val => some (List.replicate (rleAlphabetBase rule + r.1) val, r.2)
  else if rule < 19 then
    some (List.replicate (rleAlphabetBase rule + r.1) 0, r.2)
  else none

/-- Decode loop of `ReadCondensedHuffman`: decode RLE symbols until
`HLIT + HDIST` lengths have been expanded.  Every iteration expands at
least one length, so fuel `total + 1` suffices. -/
def readCondensedLoop :
    Nat → BitReaderState → CHNode → Nat → List Nat →
      Option (List Nat × BitReaderState)
  | 0, _, _, _, _ => none
  | fuel + 1, bb, tree, total, concat =>
    if concat.length < total then do
      let r ← traverseCH tree bb
      let e ← expandRule r.2 r.1 concat
      readCondensedLoop fuel e.2 tree total (concat ++ e.1)
    else some (concat, bb)

/-- `(*CodeLengthCode).ReadCondensedHuffman`. -/
def ReadCondensedHuffman (bb : BitReaderState) (tree : CHNode)
    (HLIT HDIST : Nat) : Option (List Nat × List Nat × BitReaderState) := do
  let r ← readCondensedLoop (HLIT + HDIST + 1) bb tree (HLIT + HDIST) []
  pure (r.1.take HLIT, (r.1.drop HLIT).take HDIST, r.2)

/-- The `decodeLitLenRule` closure of `ReadTokens`: extra bits are read
first (zero for symbols without a length-alphabet entry), then the symbol is
classified. -/
def decodeLitLenRule (bb : BitReaderState) (rule : Nat) :
    Option (TokenKind × Nat × Nat × BitReaderState) := do
  let extraBits := lenAlphabetExtraBits rule
  let r ← if extraBits > 0 then readCompressedContent bb extraBits
    else some (0, bb)
  if rule < 256 then some (.literalToken, rule, 0, r.2)
  else if rule = 256 then some (.endOfBlockToken, rule, 0, r.2)
  else if rule < 286 then
    some (.matchToken, lenAlphabetBase rule + r.1, r.1, r.2)
  else none

/-- The `decodeDistRule` closure of `ReadTokens`. -/
def decodeDistRule (bb : BitReaderState) (rule : Nat) :
    Option (Nat × Nat × BitReaderState) := do
  let extraBits := distAlphabetExtraBits rule
  let r ← if extraBits > 0 then readCompressedContent bb extraBits
    else some (0, bb)
  some (distAlphabetBase rule + r.1, r.1, r.2)

/-- Token loop of `flate.ReadTokens`: decode literal/length symbols until
end-of-block.  Each iteration consumes at least one bit (the decoder root is
never a leaf), so fuel `8 * |input| + 64` suffices. -/
def readTokensLoop :
    Nat → BitReaderState → CHNode → CHNode → List Token →
      Option (List Token × BitReaderState)
  | 0, _, _, _, _ => none
  | fuel + 1, bb, litTree, distTree, acc => do
    let r ← traverseCH litTree bb
    let d ← decodeLitLenRule r.2 r.1
    match d.1 with
    | .endOfBlockToken => some (acc, d.2.2.2)
    | .literalToken =>
      readTokensLoop fuel d.2.2.2 litTree distTree
        (acc ++ [{ Kind := .literalToken, Value := d.2.1 }])
    | .matchToken => do
      let r2 ← traverseCH distTree d.2.2.2
      let d2 ← decodeDistRule r2.2 r2.1
      let tok : Token :=
        { Kind := .matchToken
          Length := d.2.1
          LengthCode := r.1
          LengthOffset := d.2.2.1
          Distance := d2.1
          DistanceCode := r2.1
          DistanceOffset := d2.2.1 }
      readTokensLoop fuel d2.2.2 litTree distTree (acc ++ [tok])

/-- `flate.ReadTokens`. -/
def ReadTokens (bb : BitReaderState) (litTree distTree : CHNode) :
    Option (List Token × BitReaderState) :=
  readTokensLoop (8 * bb.input.length + 64) bb litTree distTree []

/-- `flate.DecodeTokens` with its `findMatch` closure: literals are
appended, matches are copied from `len - distance` in the *rune* view of
the output (`none` models the Go slice panic when the window is out of
range). -/
def decodeTokensLoop : List Token → List Nat → Option (List Nat)
  | [], out => some out
  | t :: rest, out =>
    match t.Kind with
    | .literalToken => decodeTokensLoop rest (out ++ [t.Value])
    | .matchToken =>
      let runes := goStringToRunes out
      let currentIdx := runes.length
      if t.Distance ≤ currentIdx ∧ currentIdx - t.Distance + t.Length ≤ runes.length then
        decodeTokensLoop rest
          (out ++ goRunesToBytes ((runes.drop (currentIdx - t.Distance)).take t.Length))
      else none
    | .endOfBlockToken => decodeTokensLoop rest out

/-- `flate.(*DecompressionWriter).decompress`: parse the block header,
rebuild the three decoder trees, decode the token stream and expand it.
`bfinal` and `btype` are read and stored but never validated, exactly as in
the source. -/
def flateDecompress (input : List Nat) : Option (List Nat) := do
  let bb0 : BitReaderState := ⟨0, 0, input⟩
  let rBfinal ← readCompressedContent bb0 1
  let rBtype ← readCompressedContent rBfinal.2 2
  let rHlit ← readCompressedContent rBtype.2 5
  let rHdist ← readCompressedContent rHlit.2 5
  let rHclen ← readCompressedContent rHdist.2 4
  let HLIT := rHlit.1 + 257
  let HDIST := rHdist.1 + 1
  let HCLEN := rHclen.1 + 4
  let rClc ← readNChunks HCLEN 3 rHclen.2
  let clcTree ← BuildCanonicalHuffmanDecoder (reshuffle rClc.1)
  let cond ← ReadCondensedHuffman rClc.2 clcTree HLIT HDIST
  let litTree ← BuildCanonicalHuffmanDecoder cond.1
  let distTree ← BuildCanonicalHuffmanDecoder cond.2.1
  let toks ← ReadTokens cond.2.2 litTree distTree
  decodeTokensLoop toks.1 []

/-! ## Plain-Huffman decompression (`huffman/decompression.go`). -/

/-- `strings.SplitN(s, "\\\n", 2)` at the byte level, demanding that the
separator occurs (`decompress` indexes both halves, so a missing separator
is a Go panic). -/
def splitOnSep : List Nat → Option (List Nat × List Nat)
  | [] => none
  | 92 :: 10 :: rest => some ([], rest)
  | b :: rest => (splitOnSep rest).map fun p => (b :: p.1, p.2)

/-- Map-style assignment `symbolFreq[k] = v` on an association list. -/
def assocSet (l : List (Nat × Nat)) (k v : Nat) : List (Nat × Nat) :=
  if l.any (·.1 = k) then l.map (fun p => if p.1 = k then (k, v) else p)
  else l ++ [(k, v)]

/-- The backward `startFreq` scan of `huffman.decompress` (`unicode.IsDigit`
restricted to the ASCII digits the encoder emits). -/
def scanStartFreq (header : List Nat) : Nat → Nat
  | 0 => 0
  | s + 1 =>
    if (48 ≤ header.getD s 0 ∧ header.getD s 0 ≤ 57) ∧
        (s = 0 ∨ header.getD (s - 1) 0 ≠ 124) then
      scanStartFreq header s
    else s + 1

/-- Header-scanning loop of `huffman.decompress` over the header runes: an
unescaped `|` marks the end of a frequency, the following rune (or the
escape pair `\`+`n` for newline) is the symbol.  Out-of-range accesses at
`i-1`/`i+1` are Go panics (`none`). -/
def parseHeaderLoop (header : List Nat) :
    Nat → Nat → List (Nat × Nat) → Option (List (Nat × Nat))
  | 0, _, acc => some acc
  | rem + 1, i, acc =>
    if header.getD i 0 = 124 then
      if i = 0 then none
      else if header.getD (i - 1) 0 = 124 then parseHeaderLoop header rem (i + 1) acc
      else do
        let startFreq := scanStartFreq header (i - 1)
        let freq ← parseAtoi ((header.drop startFreq).take (i - startFreq))
        if header.length ≤ i + 1 then none
        else
          let s1 := header.getD (i + 1) 0
          if s1 ≠ 92 ∨ header.length ≤ i + 2 ∨ header.getD (i + 2) 0 ≠ 110 then
            parseHeaderLoop header rem (i + 1) (assocSet acc s1 freq)
          else parseHeaderLoop header rem (i + 1) (assocSet acc 10 freq)
    else parseHeaderLoop header rem (i + 1) acc

/-- `huffman.getSymbol`: descend from `currentNode` reading code characters
from position `index`; a leaf yields its symbol and the index of the last
consumed character, running off the end of the code is an error. -/
def getSymbolGo : GoHuffTree → List Bool → Nat → Option (Nat × Nat)
  | .leaf _ _ sym, _, index => some (sym, index)
  | .node _ _ l r, code, index =>
    if code.length ≤ index + 1 then none
    else if code.getD (index + 1) false = false then getSymbolGo l code (index + 1)
    else getSymbolGo r code (index + 1)

/-- The symbol loop of `huffman.getSymbolDecoded` on a non-leaf root: each
iteration decodes one symbol starting at the current index (which strictly
increases, so fuel `|code| + 1` suffices). -/
def huffmanDecodeLoop (l r : GoHuffTree) (code : List Bool) :
    Nat → Nat → List Nat → Option (List Nat)
  | 0, _, _ => none
  | fuel + 1, index, acc =>
    if index < code.length then do
      let res ← getSymbolGo (if code.getD index false = false then l else r)
        code index
      huffmanDecodeLoop l r code fuel (res.2 + 1) (acc ++ [res.1])
    else some acc

/-- `huffman.getSymbolDecoded`: a root that is a leaf emits its symbol once
(regardless of the content length, as in the source); otherwise decode
symbol by symbol. -/
def getSymbolDecoded (root : GoHuffTree) (code : List Bool) :
    Option (List Nat) :=
  match root with
  | .leaf _ _ sym => some [sym]
  | .node _ _ l r => huffmanDecodeLoop l r code (code.length + 1) 0 []

/-- `huffman.decompress` / `huffman.decode`. -/
def huffmanDecompress (content : List Nat) : Option (List Nat) := do
  let sp ← splitOnSep content
  let headerRunes := goStringToRunes sp.1
  let freqPairs ← parseHeaderLoop headerRunes headerRunes.length 0 []
  let tree ← buildTree (sortByGo (fun a b => a.1 ≤ b.1) freqPairs)
  let code ← match sp.2 with
    | [] => some ([] : List Bool)
    | offsetByte :: rest =>
      let bits := (rest.map toBits8).flatten
      if bits.length < offsetByte then none
      else some (bits.drop offsetByte)
  let symbols ← getSymbolDecoded tree code
  pure (goRunesToBytes symbols)

/-! ## GZIP framing (`gzip/compression.go`, `gzip/decompression.go`) with
CRC-32 (IEEE) from `hash/crc32`. -/

/-- Eight shift-xor rounds of the reflected CRC-32 (IEEE polynomial
`0xEDB88320`), the table-free equivalent of the `hash/crc32` IEEE table. -/
def crc32Round : Nat → Nat → Nat
  | 0, crc => crc
  | n + 1, crc =>
    crc32Round n (if crc &&& 1 = 1 then (crc >>> 1) ^^^ 0xEDB88320 else crc >>> 1)

/-- `crc32.Update` over one byte. -/
def crc32Byte (crc byte : Nat) : Nat :=
  crc32Round 8 (crc ^^^ byte)

/-- `crc32.ChecksumIEEE`: initial value `0xFFFFFFFF`, final complement. -/
def crc32 (data : List Nat) : Nat :=
  (data.foldl crc32Byte 0xFFFFFFFF) ^^^ 0xFFFFFFFF

/-- `binary.LittleEndian.PutUint32`. -/
def le32 (n : Nat) : List Nat :=
  [n % 256, n / 256 % 256, n / 65536 % 256, n / 16777216 % 256]

/-- `binary.LittleEndian.Uint32`. -/
def readLE32 (l : List Nat) : Nat :=
  l.getD 0 0 + 256 * l.getD 1 0 + 65536 * l.getD 2 0 + 16777216 * l.getD 3 0

/-- The fixed 10-byte header written by `gzip.NewCompressionReaderAndWriter`. -/
def gzipHeader : List Nat :=
  [0x1f, 0x8b, 0x08, 0x00, 0, 0, 0, 0, 0x00, 0xff]

/-- `gzip` compression as observed through `processData` (one `Write` of the
whole input, then `Close`): fixed header, DEFLATE payload, then CRC-32 of
the input and the input length as little-endian uint32 trailer. -/
def gzipCompress (content : List Nat) (btype bfinal : Nat) :
    Option (List Nat) :=
  (flateCompress content btype bfinal).map fun fl =>
    gzipHeader ++ fl ++ le32 (crc32 content) ++ le32 (content.length % 2 ^ 32)

/-- The trailer bytes retained by `(*gzip.DecompressionWriter).Write` on its
single whole-input call: the last 8 bytes after the header (left-padded from
the zero-initialised buffer when fewer are available). -/
def gzipTrailerBytes (p : List Nat) : List Nat :=
  if p.length < 8 then List.replicate (8 - p.length) 0 ++ p
  else p.drop (p.length - 8)

/-- The verification in `(*gzip.DecompressionReader).Close`: parse
`givenCrc` and `givenSize` from the trailer and compare them with the
decoded payload.  `processData` DISCARDS this result (the reader is closed
in a `defer` whose error is never read), so it does not influence the bytes
`Decompress` returns. -/
def gzipVerifyTrailer (data payload : List Nat) : Bool :=
  let trailer := gzipTrailerBytes (data.drop 10)
  readLE32 (trailer.drop 4) = payload.length % 2 ^ 32 ∧
    readLE32 (trailer.take 4) = crc32 payload

/-- `gzip` decompression as observed through `processData`: strip the
10-byte header (a shorter input panics on the slice), DEFLATE-decode the
rest (the decoder stops at end-of-block, leaving the trailer bytes unread).
The checksum comparison of `DecompressionReader.Close` never reaches the
caller, see `gzipVerifyTrailer`. -/
def gzipDecompress (data : List Nat) : Option (List Nat) :=
  if data.length < 10 then none
  else flateDecompress (data.drop 10)

/-! ## Codec dispatcher (`internal/compression`: `Compress`, `Decompress`,
`processData`).  `Options` with only the algorithm set leaves
`BType = BFinal = 0`; the flate and gzip factories replace a zero `BType`
by 2 and pass `BFinal` through, and the lzss factory passes window 4096 and
match length `min(4096, 4096)`.  Unknown algorithms and every failure path
are `none`. -/

/-- `compression.Compress`. -/
def Compress (data : List Nat) (algorithm : String) : Option (List Nat) :=
  if algorithm = "huffman" then huffmanCompress data
  else if algorithm = "lzss" then some (lzssCompress data 4096 (min 4096 4096))
  else if algorithm = "flate" then flateCompress data 2 0
  else if algorithm = "gzip" then gzipCompress data 2 0
  else none

/-- `compression.Decompress`. -/
def Decompress (data : List Nat) (algorithm : String) : Option (List Nat) :=
  if algorithm = "huffman" then huffmanDecompress data
  else if algorithm = "lzss" then lzssDecompress data
  else if algorithm = "flate" then flateDecompress data
  else if algorithm = "gzip" then gzipDecompress data
  else none

/-! ## Claim theorems over the dispatcher and the flate/gzip pipelines. -/

/-- C1 (code bug exhibit): the dispatcher round-trip fails on the one-byte
input `0xFF` with algorithm `lzss`.  The codecs convert the input bytes to
runes, and the invalid UTF-8 byte `0xFF` becomes U+FFFD, so compressing
and decompressing returns the replacement-character bytes `EF BF BD`
instead of the original input. -/
theorem dispatcher_roundtrip_fails_on_invalid_utf8 :
    Compress [255] "lzss" = some [239, 191, 189] ∧
    Decompress [239, 191, 189] "lzss" = some [239, 191, 189] ∧
    ([239, 191, 189] : List Nat) ≠ [255] :=
  ⟨rfl, rfl, by decide⟩

/-- C2: whenever gzip compression produces an output, that output starts
with the fixed 10 header bytes and ends with the little-endian CRC-32 of
the input followed by the little-endian input length mod `2^32`. -/
theorem gzip_wire_format (data out : List Nat)
    (h : Compress data "gzip" = some out) :
    out.take 10 = [0x1f, 0x8b, 0x08, 0x00, 0, 0, 0, 0, 0x00, 0xff] ∧
    out.drop (out.length - 8) =
      le32 (crc32 data) ++ le32 (data.length % 2 ^ 32) := by
  have hc : gzipCompress data 2 0 = some out := by
    simpa [Compress] using h
  rw [gzipCompress] at hc
  rcases Option.map_eq_some'.mp hc with ⟨fl, _, hout⟩
  subst hout
  constructor
  · have hsplit : gzipHeader ++ fl ++ le32 (crc32 data) ++ le32 (data.length % 2 ^ 32)
        = gzipHeader ++ (fl ++ (le32 (crc32 data) ++ le32 (data.length % 2 ^ 32))) := by
      simp [List.append_assoc]
    rw [hsplit, show (10 : Nat) = gzipHeader.length from rfl, List.take_left]
    rfl
  · have hassoc : gzipHeader ++ fl ++ le32 (crc32 data) ++ le32 (data.length % 2 ^ 32)
        = (gzipHeader ++ fl) ++ (le32 (crc32 data) ++ le32 (data.length % 2 ^ 32)) := by
      simp [List.append_assoc]
    rw [hassoc]
    have hlen8 : (le32 (crc32 data) ++ le32 (data.length % 2 ^ 32)).length = 8 := by
      simp [le32]
    have hsub : ((gzipHeader ++ fl) ++
        (le32 (crc32 data) ++ le32 (data.length % 2 ^ 32))).length - 8
        = (gzipHeader ++ fl).length := by
      rw [List.length_append, hlen8]
      omega
    rw [hsub, List.drop_left]

/-- Witness for C2: the gzip output for `"aaaaaa"`. -/
theorem gzip_wire_format_witness :
    ([31, 139, 8, 0, 0, 0, 0, 0, 0, 255, 12, 194, 1, 9, 0, 0, 0, 128, 160,
      173, 254, 63, 81, 32, 22, 248, 25, 228, 90, 6, 0, 0, 0] : List Nat).take 10
      = [0x1f, 0x8b, 0x08, 0x00, 0, 0, 0, 0, 0x00, 0xff] ∧
    ([31, 139, 8, 0, 0, 0, 0, 0, 0, 255, 12, 194, 1, 9, 0, 0, 0, 128, 160,
      173, 254, 63, 81, 32, 22, 248, 25, 228, 90, 6, 0, 0, 0] : List Nat).drop
        (([31, 139, 8, 0, 0, 0, 0, 0, 0, 255, 12, 194, 1, 9, 0, 0, 0, 128, 160,
          173, 254, 63, 81, 32, 22, 248, 25, 228, 90, 6, 0, 0, 0] : List Nat).length - 8)
      = le32 (crc32 [97, 97, 97, 97, 97, 97]) ++
        le32 (([97, 97, 97, 97, 97, 97] : List Nat).length % 2 ^ 32) :=
  gzip_wire_format [97, 97, 97, 97, 97, 97]
    [31, 139, 8, 0, 0, 0, 0, 0, 0, 255, 12, 194, 1, 9, 0, 0, 0, 128, 160,
      173, 254, 63, 81, 32, 22, 248, 25, 228, 90, 6, 0, 0, 0] (by rfl)

/-- The gzip member for `"aaaaaa"` with its last CRC byte changed from `90`
to `91` (trailer byte 3). -/
def corruptedGzipMember : List Nat :=
  [31, 139, 8, 0, 0, 0, 0, 0, 0, 255, 12, 194, 1, 9, 0, 0, 0, 128, 160,
    173, 254, 63, 81, 32, 22, 248, 25, 228, 91, 6, 0, 0, 0]

/-- C3 (code bug exhibit): on a gzip member whose trailer CRC disagrees
with the decoded payload, `Decompress` still returns the full payload and
no error: the only checksum comparison lives in
`gzip.DecompressionReader.Close`, which `processData` calls in a `defer`
whose error is discarded. -/
theorem gzip_checksum_mismatch_ignored :
    gzipVerifyTrailer corruptedGzipMember [97, 97, 97, 97, 97, 97] = false ∧
    Decompress corruptedGzipMember "gzip" = some [97, 97, 97, 97, 97, 97] :=
  ⟨rfl, rfl⟩

/-- The flate block for `"aaaaaa"` with the two BTYPE bits (bits 1-2 of the
first byte) cleared from 2 to 0. -/
def btypeZeroBlock : List Nat :=
  [8, 194, 1, 9, 0, 0, 0, 128, 160, 173, 254, 63, 81, 32, 22]

/-- C4 (code bug exhibit): the DEFLATE decoder stores BTYPE without
validating it.  On a stream whose BTYPE field is 0 (not 2), decode does not
fail with any error: it parses the stream as a dynamic-Huffman block and
here even returns output. -/
theorem flate_btype_not_validated :
    (do
      let r1 ← readCompressedContent ⟨0, 0, btypeZeroBlock⟩ 1
      let r2 ← readCompressedContent r1.2 2
      some r2.1) = some 0 ∧
    flateDecompress btypeZeroBlock = some [97, 97, 97, 97, 97, 97] :=
  ⟨rfl, rfl⟩

/-- The input bytes of C5, `"ABABABABAB"`. -/
def ababInput : List Nat := [65, 66, 65, 66, 65, 66, 65, 66, 65, 66]

/-- The tokens the flate tokenizer actually produces for `"ABABABABAB"`. -/
def ababTokens : List Token :=
  [{ Kind := .literalToken, Value := 65 },
   { Kind := .literalToken, Value := 66 },
   { Kind := .literalToken, Value := 65 },
   { Kind := .literalToken, Value := 66 },
   { Kind := .matchToken, Length := 4, Distance := 4 },
   { Kind := .literalToken, Value := 65 },
   { Kind := .literalToken, Value := 66 }]

/-- C5 counterexample: tokenizing `"ABABABABAB"` does NOT produce
`Lit(A), Lit(B), Match(length 8, distance 2)` — the matcher searches only
strictly before the current position and the tokenizer rejects overlapping
matches (`Size > NegativeOffset`), so the actual token list has 7 entries
with a `Match(length 4, distance 4)`. -/
theorem abab_tokenization_counterexample :
    tokeniseLZSS (findMatchRefs (goStringToRunes ababInput)
      maxAllowedBackwardDistance maxAllowedMatchLength) 0 = some ababTokens ∧
    ababTokens ≠
      [{ Kind := .literalToken, Value := 65 },
       { Kind := .literalToken, Value := 66 },
       { Kind := .matchToken, Length := 8, Distance := 2 }] :=
  ⟨rfl, by decide⟩

/-- C5 amended: `"ABABABABAB"` tokenizes to
`Lit(A), Lit(B), Lit(A), Lit(B), Match(length 4, distance 4), Lit(A),
Lit(B)`, and the flate round-trip of this input is exact. -/
theorem abab_tokenization_amended :
    tokeniseLZSS (findMatchRefs (goStringToRunes ababInput)
      maxAllowedBackwardDistance maxAllowedMatchLength) 0 = some ababTokens ∧
    (Compress ababInput "flate").bind (fun c => Decompress c "flate")
      = some ababInput :=
  ⟨rfl, rfl⟩

/-- C8 (code bug exhibit): compressing the empty input succeeds only for
`lzss`.  For `huffman` the frequency map is empty and `buildTree` pops an
empty heap (a Go runtime panic); for `flate` (and hence `gzip`) the empty
token stream leaves the distance alphabet without any symbol and the same
empty-heap pop panics inside `DistanceCode.Encode`. -/
theorem empty_input_roundtrip_broken :
    Compress [] "huffman" = none ∧
    Compress [] "flate" = none ∧
    Compress [] "gzip" = none ∧
    Compress [] "lzss" = some [] ∧
    Decompress [] "lzss" = some [] :=
  ⟨rfl, rfl, rfl, rfl, rfl⟩

end Codec
